import Mathlib

/-!
# Verification of the meff / raster / merge helpers

Shallow embedding of the `woelt-dev` repository's core functions:

* `src/utils/calculate.py` — `meff`, the modified effective mesh size
  (CBC variant) computed per mask region;
* `src/utils/convert.py` — `to_centroids`, raster-to-point conversion;
* `src/utils/process.py` — `merge_features`, relational merge of feature
  tables on a key column.

Geometry (areas, intersection, bounding boxes) is delegated by the source
to shapely/geopandas; we embed it as an explicit interface `GeoModel`
parameterising the aggregation code, together with a concrete executable
model of axis-aligned rational rectangles used to evaluate the theorems on
concrete inputs.  Python floats are modelled as exact rationals; a Python
`ZeroDivisionError` is modelled as `Option.none`.
-/

namespace Woelt

/-- An axis-aligned bounding box, as returned by shapely's `geometry.bounds`
(`minx, miny, maxx, maxy`). -/
structure Box where
  minx : ℚ
  miny : ℚ
  maxx : ℚ
  maxy : ℚ
deriving DecidableEq

/-- Closed-box overlap test: the contract of the geopandas `sindex`
R-tree query `sindex.intersection(bounds)` — a fragment is a candidate
exactly when its bounding box meets the query box. -/
def boxIntersects (a b : Box) : Bool :=
  decide (a.minx ≤ b.maxx) && decide (b.minx ≤ a.maxx) &&
  decide (a.miny ≤ b.maxy) && decide (b.miny ≤ a.maxy)

/-- Interface to the computational-geometry library (shapely) used by
`calculate.meff`: area, pairwise intersection, the exact `intersects`
predicate and the `bounds` accessor of a geometry. -/
structure GeoModel (G : Type) where
  area : G → ℚ
  inter : G → G → G
  intersects : G → G → Bool
  bounds : G → Box

/-- Embeds `patches.iloc[list(patches_sindex.intersection(cell.geometry.bounds))]`
from `calculate.meff`: the spatial index returns every patch whose bounding
box intersects the query box.  The R-tree may report candidates in any
order; since the aggregation below is a sum, order is immaterial and we
keep patch order. -/
def sindexQuery {G : Type} (M : GeoModel G) (patches : List G) (box : Box) : List G :=
  patches.filter (fun p => boxIntersects (M.bounds p) box)

/-- Embeds the body of the per-cell loop of `calculate.meff`
(lines 56–71): query the spatial index with the cell's bounds, keep
candidates that really intersect the cell, accumulate
`ai * acmpl = area(f ∩ cell) * area(f)`, divide by the cell area, convert
to km².  The division `fragments_sum / cell.geometry.area` is unguarded in
the source and raises `ZeroDivisionError` when the cell area is zero; we
model the raise as `none`. -/
def meffCell {G : Type} (M : GeoModel G) (patches : List G) (cell : G) : Option ℚ :=
  let fragment_candidates := sindexQuery M patches (M.bounds cell)
  let fragments := fragment_candidates.filter (fun f => M.intersects f cell)
  let fragments_sum :=
    fragments.foldl (fun acc f => acc + M.area (M.inter f cell) * M.area f) 0
  if M.area cell = 0 then none
  else some (fragments_sum / M.area cell / 1000 ^ 2)

/-! ## Concrete geometry: axis-aligned rational rectangles

A small executable instance of `GeoModel`, used to evaluate every theorem
on concrete inputs.  Degenerate (empty) rectangles have area `0`. -/

/-- An axis-aligned rectangle `[x0, x1] × [y0, y1]` (empty when
`x1 < x0` or `y1 < y0`). -/
structure Rect where
  x0 : ℚ
  y0 : ℚ
  x1 : ℚ
  y1 : ℚ
deriving DecidableEq

def Rect.area (r : Rect) : ℚ :=
  max (r.x1 - r.x0) 0 * max (r.y1 - r.y0) 0

def Rect.interRect (a b : Rect) : Rect :=
  ⟨max a.x0 b.x0, max a.y0 b.y0, min a.x1 b.x1, min a.y1 b.y1⟩

def Rect.intersectsRect (a b : Rect) : Bool :=
  decide (max a.x0 b.x0 ≤ min a.x1 b.x1) && decide (max a.y0 b.y0 ≤ min a.y1 b.y1)

def Rect.boundsOf (r : Rect) : Box :=
  ⟨r.x0, r.y0, r.x1, r.y1⟩

/-- Rectangles as a concrete `GeoModel`. -/
def rectModel : GeoModel Rect :=
  ⟨Rect.area, Rect.interRect, Rect.intersectsRect, Rect.boundsOf⟩

/-! ## Assembling the cut-line set (`calculate.meff`, lines 45–50)

The source executes `lines.geometry.append(boundary.boundary)` and then
unions `lines`.  pandas `Series.append` is not an in-place operation: it
returns a new series, which the source discards, so only the network
lines reach `unary_union` / `polygonize_full`. -/

/-- Embeds pandas `Series.append`: returns the concatenation of the two
series; it never mutates its receiver. -/
def seriesAppend {G : Type} (s t : List G) : List G := s ++ t

/-- The set of line geometries that `calculate.meff` actually feeds into
`unary_union` and then `polygonize_full`.  The result of
`lines.geometry.append(boundary.boundary)` is discarded (as in the
source), so the boundary ring is absent. -/
def lineUnionInput {G : Type} (lines ring : List G) : List G :=
  let _appended := seriesAppend lines ring
  lines

/-- Modelled from the spec: «produce a single unioned line geometry set
consisting of (a) every line in the network and (b) the ring (outer
boundary curve) of the Boundary polygon» — the cut-line set the spec
prescribes, for comparison with `lineUnionInput`. -/
def lineUnionInputSpec {G : Type} (lines ring : List G) : List G :=
  lines ++ ring

/-! ## The mask table and the full `meff` pass -/

/-- One region (row) of the Mask `GeoDataFrame`: its index label, its
geometry, and its remaining attribute columns as an association list.
An attribute value of `none` models `np.nan`. -/
structure MaskRow (G : Type) where
  idx : ℕ
  geometry : G
  attrs : List (String × Option ℚ)
deriving DecidableEq

/-- Embeds a pandas column write on one row (`mask['meff'] = np.nan` /
`mask.at[i, 'meff'] = v`): replace the value of an existing column, or
append a new column at the end. -/
def setAttr (attrs : List (String × Option ℚ)) (name : String) (v : Option ℚ) :
    List (String × Option ℚ) :=
  if attrs.any (fun p => p.1 == name) then
    attrs.map (fun p => if p.1 == name then (p.1, v) else p)
  else
    attrs ++ [(name, v)]

/-- Embeds `mask['meff'] = np.nan`: every row gets a `meff` attribute
holding NaN. -/
def addMeffColumn {G : Type} (mask : List (MaskRow G)) : List (MaskRow G) :=
  mask.map (fun r => { r with attrs := setAttr r.attrs "meff" none })

/-- Embeds the per-cell loop of `calculate.meff` (lines 55–72): each row's
`meff` value is computed from the shared patch set and written into that
row's own `meff` slot (`mask.at[cell.Index, 'meff'] = meff`; each
iteration writes the row it is visiting, so the write is positional).
A `ZeroDivisionError` inside an iteration aborts the whole pass
(`none`). -/
def meffLoop {G : Type} (M : GeoModel G) (patches : List G) :
    List (MaskRow G) → Option (List (MaskRow G))
  | [] => some []
  | r :: rs => do
    let v ← meffCell M patches r.geometry
    let rest ← meffLoop M patches rs
    some ({ r with attrs := setAttr r.attrs "meff" (some v) } :: rest)

/-- Embeds the whole body of `calculate.meff` on an already-copied mask:
assemble the cut lines (the boundary ring is dropped, see
`lineUnionInput`), polygonize them, add the `meff` column, run the
per-cell loop.  `polygonize` stands for the external composite
`unary_union` → `shapely.ops.polygonize_full` → `explode`, which the
source fully delegates to shapely/geopandas. -/
def meff_run {G : Type} (M : GeoModel G) (polygonize : List G → List G)
    (lines ring : List G) (mask : List (MaskRow G)) : Option (List (MaskRow G)) :=
  let cutLines := lineUnionInput lines ring
  let patches := polygonize cutLines
  meffLoop M patches (addMeffColumn mask)

/-- A heap of Mask tables; a reference is an index into the heap.  Used to
express object identity (`mask.copy()` versus in-place mutation). -/
abbrev Store (G : Type) := List (List (MaskRow G))

/-- Embeds `calculate.meff` with the caller's Mask held on a heap:
the function reads the caller's table, allocates a fresh copy
(`mask = mask.copy()`), performs all column writes on the copy, and
returns a reference to the copy. -/
def meffProg {G : Type} (M : GeoModel G) (polygonize : List G → List G)
    (lines ring : List G) (s : Store G) (maskRef : ℕ) : Option (Store G × ℕ) := do
  let mask ← s.get? maskRef
  let copyRef := s.length
  let s1 := s ++ [mask]
  let out ← meff_run M polygonize lines ring mask
  some (s1.set copyRef out, copyRef)

/-- The per-region results of the loop keyed by each region's index label:
row order only determines iteration order, each value is written to the
row's own slot. -/
def meffValues {G : Type} (M : GeoModel G) (patches : List G)
    (mask : List (MaskRow G)) : List (ℕ × Option ℚ) :=
  mask.map (fun r => (r.idx, meffCell M patches r.geometry))

/-! ## `convert.to_centroids` (src/utils/convert.py, lines 30–71)

The raster read by `rasterio` is a 3-d array `(bands, rows, cols)`; band
values are modelled as exact integers.  `src.xy` (the affine pixel-center
transform) is an external accessor, taken as a parameter. -/

/-- A raster: band count, grid shape, and the pixel accessor
`px band row col`. -/
structure Raster where
  nbands : ℕ
  nrows : ℕ
  ncols : ℕ
  px : ℕ → ℕ → ℕ → ℤ

/-- Embeds `sum(arr)` at one pixel: the Python builtin `sum` iterates the
first axis of the 3-d array, adding the 2-d band planes elementwise, so
at each pixel it yields the sum of that pixel's values across all
bands. -/
def bandSum (R : Raster) (r c : ℕ) : ℤ :=
  ((List.range R.nbands).map (fun b => R.px b r c)).sum

/-- Embeds the selection made by `mask = sum(arr) == nodata` together with
the `if not mask[r, c]` filter of the double loop: the `(row, col)` pairs
of the pixels that survive into the output, in loop order. -/
def keptPixels (R : Raster) (nodata : ℤ) : List (ℕ × ℕ) :=
  (List.range R.nrows).flatMap (fun r =>
    ((List.range R.ncols).filter (fun c => !(bandSum R r c == nodata))).map
      (fun c => (r, c)))

/-- Embeds `to_centroids`' output rows: one point per kept pixel, holding
its center coordinates `xy r c` and the value of every band at that
pixel (the `b1 … bn` columns). -/
def to_centroids (R : Raster) (nodata : ℤ) (xy : ℕ → ℕ → ℚ × ℚ) :
    List ((ℚ × ℚ) × List ℤ) :=
  (keptPixels R nodata).map (fun rc =>
    (xy rc.1 rc.2, (List.range R.nbands).map (fun b => R.px b rc.1 rc.2)))

/-! ## `process.merge_features` (src/utils/process.py)

Feature tables are embedded as a column-name list plus association-list
rows; `pd.merge(..., on=key)` is the library inner join, including its
`_x` / `_y` suffixing of column names shared by both operands. -/

/-- One table row: column name ↦ value. -/
abbrev Row := List (String × ℤ)

/-- A feature table (`pandas.DataFrame`): its column names in order, and
its rows, each an association list keyed exactly by `cols`. -/
structure Table where
  cols : List String
  rows : List Row
deriving DecidableEq

/-- Well-formedness of a `DataFrame`: every row carries exactly the
table's columns, in order. -/
def Table.WF (t : Table) : Prop :=
  ∀ row ∈ t.rows, row.map Prod.fst = t.cols

/-- Embeds `df.drop(columns=ds)`. -/
def dropCols (t : Table) (ds : List String) : Table :=
  { cols := t.cols.filter (fun c => ¬ c ∈ ds),
    rows := t.rows.map (fun row => row.filter (fun p => ¬ p.1 ∈ ds)) }

/-- The column names shared by both merge operands other than the key:
exactly these get the `_x` / `_y` suffixes in `pd.merge`. -/
def sharedCols (l r : Table) (key : String) : List String :=
  l.cols.filter (fun c => c ∈ r.cols ∧ c ≠ key)

/-- Rename the columns in `shared` by appending `sfx`, as `pd.merge`
suffixes overlapping non-key column names. -/
def renameBy (shared : List String) (sfx : String) (c : String) : String :=
  if c ∈ shared then c ++ sfx else c

def renameRow (shared : List String) (sfx : String) (row : Row) : Row :=
  row.map (fun p => (renameBy shared sfx p.1, p.2))

/-- Embeds `pd.merge(l, r, on=key)`: an inner equi-join on `key`.  The
result keeps the left columns then the right columns minus the key;
non-key columns present on both sides are suffixed `_x` (left) and `_y`
(right).  Row order follows the left table, as pandas does for an inner
merge. -/
def mergeOn (l r : Table) (key : String) : Table :=
  let shared := sharedCols l r key
  { cols := l.cols.map (renameBy shared "_x") ++
      ((r.cols.filter (fun c => c ≠ key)).map (renameBy shared "_y")),
    rows := l.rows.flatMap (fun lrow =>
      ((r.rows.filter (fun rrow => rrow.lookup key = lrow.lookup key)).map
        (fun rrow =>
          renameRow shared "_x" lrow ++
            renameRow shared "_y" (rrow.filter (fun p => p.1 ≠ key))))) }

/-- The set (as a list) of columns common to every table of a non-empty
list, embedding `set.intersection(*cols_set_list)`. -/
def commonCols (t : Table) (rest : List Table) : List String :=
  rest.foldl (fun acc u => acc.filter (fun c => c ∈ u.cols)) t.cols

/-- Embeds `process.merge_features`.  The source reverses the list and
pops from its end, so tables are consumed in their original order with
the first table as the initial accumulator.  With `ignore_duplicates`
the columns common to all tables except the key are dropped from every
later table before each merge.  On an empty list the source raises
(`set.intersection` with no arguments / `pop` from an empty list),
modelled as `none`. -/
def merge_features (lst : List Table) (ignore_duplicates : Bool) (merge_on : String) :
    Option Table :=
  match lst with
  | [] => none
  | t :: rest =>
    let cols_duplicate :=
      if ignore_duplicates then (commonCols t rest).filter (fun c => c ≠ merge_on)
      else []
    some (rest.foldl (fun gdf u => mergeOn gdf (dropCols u cols_duplicate) merge_on) t)

/-- All column names occurring in any table of the list. -/
def allCols (lst : List Table) : List String :=
  lst.flatMap Table.cols

/-- «The accumulated table carries the first table's copy of column `v`»:
`v` occurs exactly once among the columns, and every row's `key` and `v`
values are those of a row of the first table `t₀`. -/
def FirstWins (t₀ : Table) (key v : String) (acc : Table) : Prop :=
  acc.cols.count v = 1 ∧
  ∀ row ∈ acc.rows, ∃ r₀ ∈ t₀.rows,
    (∃ kv, row.lookup key = some kv ∧ r₀.lookup key = some kv) ∧
    (∃ vv, row.lookup v = some vv ∧ r₀.lookup v = some vv)

/-! ## Helper lemmas -/

lemma foldl_add_map_sum {α : Type} (g : α → ℚ) :
    ∀ (l : List α) (a : ℚ), l.foldl (fun acc f => acc + g f) a = a + (l.map g).sum := by
  intro l
  induction l with
  | nil => intro a; simp
  | cons x t ih => intro a; simp [ih, add_assoc]

lemma sindex_filter_eq {G : Type} (M : GeoModel G) (patches : List G) (cell : G)
    (hbox : ∀ f ∈ patches, M.intersects f cell = true →
      boxIntersects (M.bounds f) (M.bounds cell) = true) :
    (sindexQuery M patches (M.bounds cell)).filter (fun f => M.intersects f cell)
      = patches.filter (fun f => M.intersects f cell) := by
  unfold sindexQuery
  rw [List.filter_filter]
  refine List.filter_congr ?_
  intro x hx
  cases hI : M.intersects x cell with
  | false => simp
  | true => simp [hbox x hx hI]

/-! ## Claim theorems: the per-region aggregation -/

/-- C1: for a region of positive area the value computed by the loop body
of `calculate.meff` equals the sum, over every fragment whose geometry
intersects the region, of `area(f ∩ R) * area(f)`, divided by the region
area and then by 1,000,000.  The hypothesis `hbox` is the spatial-index
contract (a geometry's bounding box contains it, so exact intersection
implies bounding-box intersection), under which the R-tree prefilter is
lossless. -/
theorem meffCell_eq_weighted_sum {G : Type} (M : GeoModel G) (patches : List G) (cell : G)
    (hpos : 0 < M.area cell)
    (hbox : ∀ f ∈ patches, M.intersects f cell = true →
      boxIntersects (M.bounds f) (M.bounds cell) = true) :
    meffCell M patches cell =
      some (((patches.filter (fun f => M.intersects f cell)).map
        (fun f => M.area (M.inter f cell) * M.area f)).sum / M.area cell / 1000000) := by
  simp only [meffCell]
  rw [sindex_filter_eq M patches cell hbox, foldl_add_map_sum, if_neg (ne_of_gt hpos)]
  norm_num

/-- C1 witness: a 2000 × 1000 fragment and a disjoint 10 × 10 fragment
against a 1000 × 1000 cell; the loop yields
`(1000·1000 · 2000·1000) / 10⁶ / 10⁶ = 2` km². -/
theorem meffCell_eq_weighted_sum_witness :
    0 < rectModel.area ⟨0, 0, 1000, 1000⟩ ∧
    (∀ f ∈ [(⟨0, 0, 2000, 1000⟩ : Rect), ⟨5000, 5000, 5010, 5010⟩],
      rectModel.intersects f ⟨0, 0, 1000, 1000⟩ = true →
        boxIntersects (rectModel.bounds f) (rectModel.bounds ⟨0, 0, 1000, 1000⟩) = true) ∧
    meffCell rectModel [⟨0, 0, 2000, 1000⟩, ⟨5000, 5000, 5010, 5010⟩] ⟨0, 0, 1000, 1000⟩ =
      some ((([(⟨0, 0, 2000, 1000⟩ : Rect), ⟨5000, 5000, 5010, 5010⟩].filter
          (fun f => rectModel.intersects f ⟨0, 0, 1000, 1000⟩)).map
        (fun f => rectModel.area (rectModel.inter f ⟨0, 0, 1000, 1000⟩) * rectModel.area f)).sum /
          rectModel.area ⟨0, 0, 1000, 1000⟩ / 1000000) := by
  refine ⟨?_, ?_, meffCell_eq_weighted_sum rectModel _ _ ?_ ?_⟩
  · norm_num [rectModel, Rect.area]
  · intro f hf
    fin_cases hf <;>
      norm_num [rectModel, Rect.intersectsRect, Rect.boundsOf, boxIntersects]
  · norm_num [rectModel, Rect.area]
  · intro f hf
    fin_cases hf <;>
      norm_num [rectModel, Rect.intersectsRect, Rect.boundsOf, boxIntersects]

/-- C4: the division `fragments_sum / cell.geometry.area` in
`calculate.meff` is unguarded: a region of zero area makes the loop body
raise (`ZeroDivisionError`, modelled as `none`) instead of producing a
finite `meff` value. -/
theorem meffCell_zero_area_raises {G : Type} (M : GeoModel G) (patches : List G) (cell : G)
    (h : M.area cell = 0) :
    meffCell M patches cell = none := by
  simp [meffCell, h]

/-- C4 witness: a degenerate (zero-width) region raises even with a
fragment present. -/
theorem meffCell_zero_area_raises_witness :
    rectModel.area ⟨0, 0, 0, 5⟩ = 0 ∧
    meffCell rectModel [⟨0, 0, 2, 2⟩] ⟨0, 0, 0, 5⟩ = none := by
  refine ⟨?_, meffCell_zero_area_raises rectModel _ _ ?_⟩ <;>
    norm_num [rectModel, Rect.area]

/-- C5: a region of positive area that no fragment intersects gets
`meff = 0`. -/
theorem meffCell_no_overlap_zero {G : Type} (M : GeoModel G) (patches : List G) (cell : G)
    (hpos : 0 < M.area cell)
    (hnone : ∀ f ∈ patches, M.intersects f cell = false) :
    meffCell M patches cell = some 0 := by
  simp only [meffCell]
  have hfil : (sindexQuery M patches (M.bounds cell)).filter (fun f => M.intersects f cell)
      = [] := by
    rw [List.filter_eq_nil_iff]
    intro f hf
    have hfp : f ∈ patches := (List.mem_filter.mp hf).1
    simp [hnone f hfp]
  rw [hfil, if_neg (ne_of_gt hpos)]
  simp

/-- C5 witness: a far-away fragment does not touch the unit cell, so the
cell's value is 0. -/
theorem meffCell_no_overlap_zero_witness :
    0 < rectModel.area ⟨0, 0, 1, 1⟩ ∧
    (∀ f ∈ [(⟨10, 10, 12, 12⟩ : Rect)], rectModel.intersects f ⟨0, 0, 1, 1⟩ = false) ∧
    meffCell rectModel [⟨10, 10, 12, 12⟩] ⟨0, 0, 1, 1⟩ = some 0 := by
  refine ⟨?_, ?_, meffCell_no_overlap_zero rectModel _ _ ?_ ?_⟩
  · norm_num [rectModel, Rect.area]
  · intro f hf
    fin_cases hf
    norm_num [rectModel, Rect.intersectsRect]
  · norm_num [rectModel, Rect.area]
  · intro f hf
    fin_cases hf
    norm_num [rectModel, Rect.intersectsRect]

/-- C8: with nonnegative fragment and intersection areas (as the geometry
library guarantees) and a region of positive area, the computed `meff`
value is nonnegative. -/
theorem meffCell_nonneg {G : Type} (M : GeoModel G) (patches : List G) (cell : G)
    (hpos : 0 < M.area cell)
    (hnn : ∀ f ∈ patches, 0 ≤ M.area f ∧ 0 ≤ M.area (M.inter f cell)) :
    ∃ v, meffCell M patches cell = some v ∧ 0 ≤ v := by
  simp only [meffCell]
  rw [foldl_add_map_sum, if_neg (ne_of_gt hpos)]
  refine ⟨_, rfl, ?_⟩
  have hsum : 0 ≤ (((sindexQuery M patches (M.bounds cell)).filter
      (fun f => M.intersects f cell)).map
        (fun f => M.area (M.inter f cell) * M.area f)).sum := by
    refine List.sum_nonneg ?_
    intro x hx
    obtain ⟨f, hf, rfl⟩ := List.mem_map.mp hx
    have hfp : f ∈ patches := by
      have h1 := (List.mem_filter.mp hf).1
      exact (List.mem_filter.mp h1).1
    exact mul_nonneg (hnn f hfp).2 (hnn f hfp).1
  have h1000 : (0:ℚ) ≤ 1000 ^ 2 := by norm_num
  refine div_nonneg (div_nonneg ?_ (le_of_lt hpos)) h1000
  simpa using hsum

/-- C8 witness: two overlapping fragments on the unit cell give a
nonnegative value. -/
theorem meffCell_nonneg_witness :
    0 < rectModel.area ⟨0, 0, 1, 1⟩ ∧
    (∀ f ∈ [(⟨0, 0, 2, 2⟩ : Rect), ⟨-1, -1, 1, 1⟩],
      0 ≤ rectModel.area f ∧ 0 ≤ rectModel.area (rectModel.inter f ⟨0, 0, 1, 1⟩)) ∧
    ∃ v, meffCell rectModel [⟨0, 0, 2, 2⟩, ⟨-1, -1, 1, 1⟩] ⟨0, 0, 1, 1⟩ = some v ∧ 0 ≤ v := by
  refine ⟨?_, ?_, meffCell_nonneg rectModel _ _ ?_ ?_⟩
  · norm_num [rectModel, Rect.area]
  · intro f hf
    fin_cases hf <;> norm_num [rectModel, Rect.area, Rect.interRect]
  · norm_num [rectModel, Rect.area]
  · intro f hf
    fin_cases hf <;> norm_num [rectModel, Rect.area, Rect.interRect]

/-- C2: the cut-line set that `calculate.meff` unions and polygonizes is
the network lines alone — the result of
`lines.geometry.append(boundary.boundary)` is discarded, since pandas
`Series.append` returns a new series instead of mutating its receiver.
This contradicts the function's own docstring («Merges the lines with the
boundary to create a "closed" area»): the boundary ring never acts as a
cut line, witnessed by an input with no network lines whose spec-side
cut-line set is the ring itself. -/
theorem lineUnionInput_omits_boundary :
    (∀ (lines ring : List Rect), lineUnionInput lines ring = lines) ∧
    lineUnionInput ([] : List Rect) [⟨0, 0, 10, 10⟩] = [] ∧
    lineUnionInputSpec ([] : List Rect) [⟨0, 0, 10, 10⟩] = [⟨0, 0, 10, 10⟩] ∧
    lineUnionInput ([] : List Rect) [⟨0, 0, 10, 10⟩] ≠
      lineUnionInputSpec ([] : List Rect) [⟨0, 0, 10, 10⟩] := by
  refine ⟨fun lines ring => rfl, rfl, rfl, ?_⟩
  simp [lineUnionInput, lineUnionInputSpec, seriesAppend]

/-! ## Order independence of the per-region pass (C6) -/

lemma lookup_isSome_of_mem_keys {β : Type} (l : List (String × β)) (a : String)
    (h : a ∈ l.map Prod.fst) : ∃ b, l.lookup a = some b := by
  induction l with
  | nil => simp at h
  | cons p t ih =>
    by_cases hpa : a = p.1
    · exact ⟨p.2, by simp [List.lookup, beq_iff_eq.mpr hpa]⟩
    · have h2 : a ∈ t.map Prod.fst := by
        rcases List.mem_cons.mp h with h1 | h2
        · exact absurd h1 hpa
        · exact h2
      obtain ⟨b, hb⟩ := ih h2
      exact ⟨b, by simp [List.lookup, beq_eq_false_iff_ne.mpr hpa, hb]⟩

/-- Looking a key up in an association list is invariant under permuting
the list, provided keys are unique. -/
lemma lookup_eq_of_perm {β : Type} {l₁ l₂ : List (ℕ × β)} (h : l₁.Perm l₂)
    (hnd : (l₁.map Prod.fst).Nodup) (a : ℕ) : l₁.lookup a = l₂.lookup a := by
  induction h with
  | nil => rfl
  | cons p h ih =>
    simp only [List.map_cons, List.nodup_cons] at hnd
    by_cases hpa : a = p.1
    · simp [List.lookup, beq_iff_eq.mpr hpa]
    · simp [List.lookup, beq_eq_false_iff_ne.mpr hpa, ih hnd.2]
  | swap p q l =>
    simp only [List.map_cons, List.nodup_cons, List.mem_cons] at hnd
    have hqp : q.1 ≠ p.1 := fun e => hnd.1 (Or.inl e)
    by_cases hqa : a = q.1
    · have hpa : a ≠ p.1 := by rw [hqa]; exact hqp
      simp [List.lookup, beq_iff_eq.mpr hqa, beq_eq_false_iff_ne.mpr hpa]
    · by_cases hpa : a = p.1
      · simp [List.lookup, beq_iff_eq.mpr hpa, beq_eq_false_iff_ne.mpr hqa]
      · simp [List.lookup, beq_eq_false_iff_ne.mpr hpa, beq_eq_false_iff_ne.mpr hqa]
  | trans h₁ h₂ ih₁ ih₂ =>
    have hnd₂ := (h₁.map Prod.fst).nodup_iff.mp hnd
    rw [ih₁ hnd, ih₂ hnd₂]

/-- C6: permuting the rows of the Mask does not change the `meff` value
computed for any individual region (identified by its index label): each
iteration of the loop in `calculate.meff` reads only the shared patch set
and the region's own geometry and writes only the region's own slot. -/
theorem meffValues_order_independent {G : Type} (M : GeoModel G) (patches : List G)
    (mask₁ mask₂ : List (MaskRow G)) (hperm : mask₁.Perm mask₂)
    (hnd : (mask₁.map MaskRow.idx).Nodup) (i : ℕ) :
    (meffValues M patches mask₁).lookup i = (meffValues M patches mask₂).lookup i := by
  have hmap : (meffValues M patches mask₁).map Prod.fst = mask₁.map MaskRow.idx := by
    simp [meffValues, Function.comp]
  exact lookup_eq_of_perm (hperm.map _) (hmap ▸ hnd) i

/-- C6 witness: swapping two one-attribute regions leaves each index
label's value unchanged. -/
theorem meffValues_order_independent_witness :
    ([⟨0, ⟨0, 0, 1, 1⟩, []⟩, (⟨1, ⟨2, 0, 3, 1⟩, []⟩ : MaskRow Rect)]).Perm
      [⟨1, ⟨2, 0, 3, 1⟩, []⟩, ⟨0, ⟨0, 0, 1, 1⟩, []⟩] ∧
    (([⟨0, ⟨0, 0, 1, 1⟩, []⟩, (⟨1, ⟨2, 0, 3, 1⟩, []⟩ : MaskRow Rect)]).map MaskRow.idx).Nodup ∧
    (meffValues rectModel [⟨0, 0, 2, 2⟩]
        [⟨0, ⟨0, 0, 1, 1⟩, []⟩, ⟨1, ⟨2, 0, 3, 1⟩, []⟩]).lookup 0 =
      (meffValues rectModel [⟨0, 0, 2, 2⟩]
        [⟨1, ⟨2, 0, 3, 1⟩, []⟩, ⟨0, ⟨0, 0, 1, 1⟩, []⟩]).lookup 0 := by
  refine ⟨List.Perm.swap _ _ _, ?_, meffValues_order_independent rectModel _ _ _
    (List.Perm.swap _ _ _) ?_ 0⟩ <;> simp

/-! ## Column writes (`setAttr`) and the frame of the per-region pass -/

lemma lookup_append_single_ne {β : Type} (l : List (String × β)) (name n : String)
    (v : β) (h : n ≠ name) : (l ++ [(name, v)]).lookup n = l.lookup n := by
  induction l with
  | nil => simp [List.lookup, beq_eq_false_iff_ne.mpr h]
  | cons p t ih =>
    by_cases hp : n = p.1
    · simp [List.lookup, beq_iff_eq.mpr hp]
    · simp [List.lookup, beq_eq_false_iff_ne.mpr hp, ih]

lemma lookup_map_replace_ne (t : List (String × Option ℚ)) (name n : String)
    (v : Option ℚ) (h : n ≠ name) :
    (t.map (fun p => if p.1 == name then (p.1, v) else p)).lookup n = t.lookup n := by
  induction t with
  | nil => rfl
  | cons p t ih =>
    rw [List.map_cons]
    by_cases hp : p.1 = name
    · rw [if_pos (beq_iff_eq.mpr hp)]
      have hnp : n ≠ p.1 := fun e => h (e.trans hp)
      simp only [List.lookup, beq_eq_false_iff_ne.mpr hnp]
      exact ih
    · rw [if_neg (fun e => hp (beq_iff_eq.mp e))]
      by_cases hnp : n = p.1
      · simp [List.lookup, beq_iff_eq.mpr hnp]
      · simp only [List.lookup, beq_eq_false_iff_ne.mpr hnp]
        exact ih

/-- Writing column `name` leaves every other column's value unchanged. -/
lemma setAttr_lookup_ne (attrs : List (String × Option ℚ)) (name n : String)
    (v : Option ℚ) (h : n ≠ name) :
    (setAttr attrs name v).lookup n = attrs.lookup n := by
  unfold setAttr
  by_cases ha : attrs.any (fun p => p.1 == name)
  · simp only [if_pos ha]
    exact lookup_map_replace_ne attrs name n v h
  · simp only [if_neg ha]
    exact lookup_append_single_ne attrs name n v h

/-- After writing column `name`, reading it back gives the written
value. -/
lemma setAttr_lookup_self (attrs : List (String × Option ℚ)) (name : String)
    (v : Option ℚ) :
    (setAttr attrs name v).lookup name = some v := by
  unfold setAttr
  by_cases ha : attrs.any (fun p => p.1 == name)
  · simp only [if_pos ha]
    induction attrs with
    | nil => simp at ha
    | cons p t ih =>
      rw [List.map_cons]
      by_cases hp : p.1 = name
      · rw [if_pos (beq_iff_eq.mpr hp)]
        simp [List.lookup, beq_iff_eq.mpr hp.symm]
      · rw [if_neg (fun e => hp (beq_iff_eq.mp e))]
        have ha' : t.any (fun p => p.1 == name) := by
          rcases List.any_eq_true.mp ha with ⟨q, hq, hqn⟩
          rcases List.mem_cons.mp hq with h1 | h2
          · exact absurd (beq_iff_eq.mp (h1 ▸ hqn)) hp
          · exact List.any_eq_true.mpr ⟨q, h2, hqn⟩
        have hnp : name ≠ p.1 := fun e => hp e.symm
        simp only [List.lookup, beq_eq_false_iff_ne.mpr hnp]
        exact ih ha'
  · simp only [if_neg ha]
    have hnone : ∀ q ∈ attrs, ¬ q.1 = name := by
      intro q hq hqn
      exact ha (List.any_eq_true.mpr ⟨q, hq, beq_iff_eq.mpr hqn⟩)
    induction attrs with
    | nil => simp [List.lookup]
    | cons p t ih =>
      have hnp : name ≠ p.1 := fun e => hnone p (List.mem_cons_self p t) e.symm
      simp [List.lookup, beq_eq_false_iff_ne.mpr hnp]
      exact ih (by
        intro hta
        rcases List.any_eq_true.mp hta with ⟨q, hq, hqn⟩
        exact ha (List.any_eq_true.mpr ⟨q, List.mem_cons_of_mem p hq, hqn⟩))
        (fun q hq => hnone q (List.mem_cons_of_mem p hq))

/-- The zero-area guard of `meffCell` is its only failure: a nonzero
region area always yields a value. -/
lemma meffCell_isSome {G : Type} (M : GeoModel G) (patches : List G) (cell : G)
    (h : M.area cell ≠ 0) : ∃ v, meffCell M patches cell = some v := by
  simp [meffCell, h]

/-- The per-region loop on rows of nonzero area: it succeeds and rewrites
each row into the same row with the `meff` column set to that row's own
computed value. -/
lemma meffLoop_spec {G : Type} (M : GeoModel G) (patches : List G) :
    ∀ (l : List (MaskRow G)), (∀ r ∈ l, M.area r.geometry ≠ 0) →
    ∃ out, meffLoop M patches l = some out ∧
      out.length = l.length ∧
      ∀ i rin rout, l.get? i = some rin → out.get? i = some rout →
        ∃ v, meffCell M patches rin.geometry = some v ∧
          rout = { rin with attrs := setAttr rin.attrs "meff" (some v) } := by
  intro l
  induction l with
  | nil =>
    intro _
    exact ⟨[], rfl, rfl, fun i rin rout h1 => by simp at h1⟩
  | cons r rs ih =>
    intro h
    obtain ⟨v, hv⟩ := meffCell_isSome M patches r.geometry (h r (List.mem_cons_self r rs))
    obtain ⟨out', hout', hlen', hpt'⟩ := ih (fun q hq => h q (List.mem_cons_of_mem r hq))
    refine ⟨({ r with attrs := setAttr r.attrs "meff" (some v) } : MaskRow G) :: out',
      ?_, by simp [hlen'], ?_⟩
    · simp only [meffLoop]
      rw [hv, hout']
      rfl
    · intro i rin rout h1 h2
      cases i with
      | zero =>
        simp only [List.get?_cons_zero, Option.some_inj] at h1 h2
        exact ⟨v, h1 ▸ hv, by rw [← h1, ← h2]⟩
      | succ n =>
        simp only [List.get?_cons_succ] at h1 h2
        exact hpt' n rin rout h1 h2

/-- C7: on a mask whose regions all have nonzero area, the table returned
by `calculate.meff` has the same number of rows in the same order; each
row keeps its index label, geometry and every attribute other than
`meff`, and its `meff` slot holds that region's computed value. -/
theorem meff_run_preserves_mask {G : Type} (M : GeoModel G) (polygonize : List G → List G)
    (lines ring : List G) (mask : List (MaskRow G))
    (h : ∀ r ∈ mask, M.area r.geometry ≠ 0) :
    ∃ out, meff_run M polygonize lines ring mask = some out ∧
      out.length = mask.length ∧
      ∀ i rin rout, mask.get? i = some rin → out.get? i = some rout →
        rout.idx = rin.idx ∧ rout.geometry = rin.geometry ∧
        (∀ name, name ≠ "meff" → rout.attrs.lookup name = rin.attrs.lookup name) ∧
        ∃ v, meffCell M (polygonize (lineUnionInput lines ring)) rin.geometry = some v ∧
          rout.attrs.lookup "meff" = some (some v) := by
  have h' : ∀ r ∈ addMeffColumn mask, M.area r.geometry ≠ 0 := by
    intro r hr
    obtain ⟨q, hq, rfl⟩ := List.mem_map.mp hr
    exact h q hq
  obtain ⟨out, hout, hlen, hpt⟩ :=
    meffLoop_spec M (polygonize (lineUnionInput lines ring)) (addMeffColumn mask) h'
  refine ⟨out, hout, by simpa [addMeffColumn] using hlen, ?_⟩
  intro i rin rout h1 h2
  have h1' : (addMeffColumn mask).get? i =
      some { rin with attrs := setAttr rin.attrs "meff" none } := by
    unfold addMeffColumn
    rw [List.get?_map, h1]
    rfl
  obtain ⟨v, hv, heq⟩ := hpt i _ rout h1' h2
  refine ⟨by rw [heq], by rw [heq], ?_, v, hv, ?_⟩
  · intro nm hnm
    rw [heq]
    show (setAttr (setAttr rin.attrs "meff" none) "meff" (some v)).lookup nm = _
    rw [setAttr_lookup_ne _ _ _ _ hnm, setAttr_lookup_ne _ _ _ _ hnm]
  · rw [heq]
    exact setAttr_lookup_self _ _ _

/-- C7 witness: a one-region mask with a `landuse` attribute: the row
keeps its label, geometry and `landuse` value, and gains the computed
`meff`. -/
theorem meff_run_preserves_mask_witness :
    (∀ r ∈ [(⟨7, ⟨0, 0, 1, 1⟩, [("landuse", some 3)]⟩ : MaskRow Rect)],
      rectModel.area r.geometry ≠ 0) ∧
    (∃ out, meff_run rectModel id ([] : List Rect) []
        [⟨7, ⟨0, 0, 1, 1⟩, [("landuse", some 3)]⟩] = some out ∧
      out.length = [(⟨7, ⟨0, 0, 1, 1⟩, [("landuse", some 3)]⟩ : MaskRow Rect)].length ∧
      ∀ i rin rout,
        [(⟨7, ⟨0, 0, 1, 1⟩, [("landuse", some 3)]⟩ : MaskRow Rect)].get? i = some rin →
        out.get? i = some rout →
        rout.idx = rin.idx ∧ rout.geometry = rin.geometry ∧
        (∀ name, name ≠ "meff" → rout.attrs.lookup name = rin.attrs.lookup name) ∧
        ∃ v, meffCell rectModel (id (lineUnionInput ([] : List Rect) [])) rin.geometry = some v ∧
          rout.attrs.lookup "meff" = some (some v)) := by
  refine ⟨?_, meff_run_preserves_mask rectModel id ([] : List Rect) [] _ ?_⟩ <;>
    · intro r hr
      fin_cases hr
      norm_num [rectModel, Rect.area]

/-! ## Object identity: `mask = mask.copy()` (C3) -/

lemma set_append_length {α : Type} : ∀ (s : List α) (x y : α),
    (s ++ [x]).set s.length y = s ++ [y] := by
  intro s x y
  induction s with
  | nil => rfl
  | cons a t ih => simp [List.set, ih]

/-- C3 (amended): `calculate.meff` does not mutate the caller's Mask: it
copies the Mask (`mask = mask.copy()`), performs all `meff` writes on the
copy, and returns the copy — a fresh object distinct from the input; the
caller's object is unchanged on the heap. -/
theorem meffProg_returns_fresh_copy {G : Type} (M : GeoModel G)
    (polygonize : List G → List G) (lines ring : List G)
    (s : Store G) (maskRef : ℕ) (mask out : List (MaskRow G))
    (hm : s.get? maskRef = some mask)
    (hrun : meff_run M polygonize lines ring mask = some out) :
    meffProg M polygonize lines ring s maskRef = some (s ++ [out], s.length) ∧
    s.length ≠ maskRef ∧
    (s ++ [out]).get? maskRef = some mask ∧
    (s ++ [out]).get? s.length = some out := by
  have hlt : maskRef < s.length := by
    by_contra hc
    rw [List.get?_eq_none.mpr (le_of_not_lt hc)] at hm
    exact Option.noConfusion hm
  refine ⟨?_, fun e => lt_irrefl _ (e ▸ hlt), ?_, List.get?_concat_length s out⟩
  · have hm' : s[maskRef]? = some mask := by
      rw [← List.get?_eq_getElem?]
      exact hm
    have h1 : meffProg M polygonize lines ring s maskRef =
        some ((s ++ [mask]).set s.length out, s.length) := by
      simp [meffProg, hm', hrun]
    rw [h1, set_append_length]
  · rw [List.get?_append hlt]
    exact hm

/-- C3 counterexample: on a concrete heap, `meff` returns reference 1
while the caller's Mask is at reference 0 — the returned object is not
the input object — and the table at reference 0 still has no `meff`
column afterwards. -/
theorem meffProg_not_in_place :
    meffProg rectModel id ([] : List Rect) [] [[⟨0, ⟨0, 0, 1, 1⟩, []⟩]] 0 =
      some ([[⟨0, ⟨0, 0, 1, 1⟩, []⟩], [⟨0, ⟨0, 0, 1, 1⟩, [("meff", some 0)]⟩]], 1) ∧
    (1 : ℕ) ≠ 0 ∧
    ([[⟨0, ⟨0, 0, 1, 1⟩, []⟩], [⟨0, ⟨0, 0, 1, 1⟩, [("meff", some 0)]⟩]] :
      Store Rect).get? 0 = some [⟨0, ⟨0, 0, 1, 1⟩, []⟩] := by
  refine ⟨?_, by norm_num, rfl⟩
  norm_num [meffProg, meff_run, meffLoop, addMeffColumn, meffCell, sindexQuery,
    lineUnionInput, seriesAppend, setAttr, rectModel, Rect.area, List.set]

/-- C3 witness (for the amended theorem): a heap with two tables; `meff`
on the table at reference 1 allocates reference 2 and leaves reference 1
untouched. -/
theorem meffProg_returns_fresh_copy_witness :
    ([([] : List (MaskRow Rect)), [⟨3, ⟨0, 0, 2, 1⟩, []⟩]] : Store Rect).get? 1 =
      some [⟨3, ⟨0, 0, 2, 1⟩, []⟩] ∧
    meff_run rectModel id ([] : List Rect) [] [⟨3, ⟨0, 0, 2, 1⟩, []⟩] =
      some [⟨3, ⟨0, 0, 2, 1⟩, [("meff", some 0)]⟩] ∧
    (meffProg rectModel id ([] : List Rect) []
        [([] : List (MaskRow Rect)), [⟨3, ⟨0, 0, 2, 1⟩, []⟩]] 1 =
      some ([([] : List (MaskRow Rect)), [⟨3, ⟨0, 0, 2, 1⟩, []⟩],
        [⟨3, ⟨0, 0, 2, 1⟩, [("meff", some 0)]⟩]], 2) ∧
    (2 : ℕ) ≠ 1 ∧
    ([([] : List (MaskRow Rect)), [⟨3, ⟨0, 0, 2, 1⟩, []⟩],
        [⟨3, ⟨0, 0, 2, 1⟩, [("meff", some 0)]⟩]] : Store Rect).get? 1 =
      some [⟨3, ⟨0, 0, 2, 1⟩, []⟩] ∧
    ([([] : List (MaskRow Rect)), [⟨3, ⟨0, 0, 2, 1⟩, []⟩],
        [⟨3, ⟨0, 0, 2, 1⟩, [("meff", some 0)]⟩]] : Store Rect).get? 2 =
      some [⟨3, ⟨0, 0, 2, 1⟩, [("meff", some 0)]⟩]) := by
  have hrun : meff_run rectModel id ([] : List Rect) [] [⟨3, ⟨0, 0, 2, 1⟩, []⟩] =
      some [⟨3, ⟨0, 0, 2, 1⟩, [("meff", some 0)]⟩] := by
    norm_num [meff_run, meffLoop, addMeffColumn, meffCell, sindexQuery,
      lineUnionInput, seriesAppend, setAttr, rectModel, Rect.area]
  exact ⟨rfl, hrun,
    meffProg_returns_fresh_copy rectModel id ([] : List Rect) [] _ 1 _ _ rfl hrun⟩

/-! ## Raster selection in `to_centroids` (C9) -/

/-- C9: `to_centroids` keeps a pixel exactly when the sum of its values
across all bands differs from `nodata` (the mask is
`sum(arr) == nodata`): the test never inspects individual band values, so
a pixel whose bands are each different from `nodata` but sum to `nodata`
is excluded, and a pixel with some bands equal to `nodata` but a
different sum is included. -/
theorem to_centroids_keeps_iff_band_sum_ne (R : Raster) (nodata : ℤ) (r c : ℕ) :
    (r, c) ∈ keptPixels R nodata ↔
      r < R.nrows ∧ c < R.ncols ∧ bandSum R r c ≠ nodata := by
  simp only [keptPixels, List.mem_flatMap, List.mem_map, List.mem_filter, List.mem_range]
  constructor
  · rintro ⟨a, ha, b, ⟨⟨hb, hs⟩, he⟩⟩
    injection he with h1 h2
    subst h1
    subst h2
    refine ⟨ha, hb, ?_⟩
    simpa using hs
  · rintro ⟨hr, hc, hs⟩
    exact ⟨r, hr, c, ⟨⟨hc, by simpa using hs⟩, rfl⟩⟩

/-! ## `merge_features` keeps the first table's copy of duplicate columns (C10) -/

lemma lookup_append_some {β : Type} (l₁ l₂ : List (String × β)) (a : String) (b : β)
    (h : l₁.lookup a = some b) : (l₁ ++ l₂).lookup a = some b := by
  induction l₁ with
  | nil => simp [List.lookup] at h
  | cons p t ih =>
    rw [List.cons_append]
    by_cases hp : a = p.1
    · simp only [List.lookup, beq_iff_eq.mpr hp] at h ⊢
      exact h
    · simp only [List.lookup, beq_eq_false_iff_ne.mpr hp] at h ⊢
      exact ih h

lemma renameBy_eq_iff (shared : List String) (sfx n : String) (hn : n ∉ shared)
    (hs : ∀ c ∈ shared, c ++ sfx ≠ n) : ∀ k, renameBy shared sfx k = n ↔ k = n := by
  intro k
  unfold renameBy
  by_cases hk : k ∈ shared
  · rw [if_pos hk]
    constructor
    · intro e
      exact absurd e (hs k hk)
    · intro e
      exact absurd (e ▸ hk) hn
  · rw [if_neg hk]

lemma count_map_eq (l : List String) (f : String → String) (v : String)
    (h : ∀ c, f c = v ↔ c = v) : (l.map f).count v = l.count v := by
  induction l with
  | nil => rfl
  | cons a t ih =>
    by_cases hav : a = v
    · simp [List.count_cons, hav, (h v).mpr rfl, ih]
    · have hfa : ¬ f a = v := fun e => hav ((h a).mp e)
      simp [List.count_cons, hav, hfa, ih]

lemma lookup_renameRow_eq (shared : List String) (sfx : String) (row : Row) (n : String)
    (h : ∀ k, renameBy shared sfx k = n ↔ k = n) :
    (renameRow shared sfx row).lookup n = row.lookup n := by
  induction row with
  | nil => rfl
  | cons p t ih =>
    unfold renameRow
    rw [List.map_cons]
    by_cases hp : n = p.1
    · have e1 : n = renameBy shared sfx p.1 := ((h p.1).mpr hp.symm).symm
      simp [List.lookup, beq_iff_eq.mpr e1, beq_iff_eq.mpr hp]
    · have e1 : n ≠ renameBy shared sfx p.1 := fun e => hp ((h p.1).mp e.symm).symm
      simp only [List.lookup, beq_eq_false_iff_ne.mpr e1, beq_eq_false_iff_ne.mpr hp]
      exact ih

lemma mem_sharedCols {l r : Table} {key c : String} (h : c ∈ sharedCols l r key) :
    c ∈ l.cols ∧ c ∈ r.cols ∧ c ≠ key := by
  have h1 := List.mem_filter.mp h
  have h2 : c ∈ r.cols ∧ c ≠ key := by simpa using h1.2
  exact ⟨h1.1, h2.1, h2.2⟩

lemma mem_dropCols_sub {u : Table} {ds : List String} {c : String}
    (h : c ∈ (dropCols u ds).cols) : c ∈ u.cols ∧ c ∉ ds := by
  have h1 := List.mem_filter.mp h
  exact ⟨h1.1, by simpa using h1.2⟩

lemma not_mem_dropCols {u : Table} {ds : List String} {v : String} (hv : v ∈ ds) :
    v ∉ (dropCols u ds).cols :=
  fun h => (mem_dropCols_sub h).2 hv

lemma mem_commonCols {v : String} (t : Table) (rest : List Table)
    (h0 : v ∈ t.cols) (h : ∀ u ∈ rest, v ∈ u.cols) : v ∈ commonCols t rest := by
  unfold commonCols
  suffices H : ∀ (ts : List Table) (acc : List String), v ∈ acc →
      (∀ u ∈ ts, v ∈ u.cols) →
      v ∈ ts.foldl (fun a u => a.filter (fun c => c ∈ u.cols)) acc from
    H rest t.cols h0 h
  intro ts
  induction ts with
  | nil => exact fun acc ha _ => ha
  | cons u us ih =>
    intro acc ha hall
    rw [List.foldl_cons]
    refine ih _ ?_ (fun w hw => hall w (List.mem_cons_of_mem _ hw))
    exact List.mem_filter.mpr ⟨ha, by simpa using hall u (List.mem_cons_self u us)⟩

/-- One `pd.merge` step of the fold preserves the first table's copy of
`v` when the right operand no longer carries `v` and the suffixed names
collide with neither `v` nor `key`. -/
lemma mergeOn_firstWins (t₀ acc rt' : Table) (key v : String)
    (hvr : v ∉ rt'.cols)
    (hxv : ∀ c ∈ rt'.cols, c ++ "_x" ≠ v)
    (hxk : ∀ c ∈ rt'.cols, c ++ "_x" ≠ key)
    (hyv : ∀ c ∈ rt'.cols, c ++ "_y" ≠ v)
    (hinv : FirstWins t₀ key v acc) :
    FirstWins t₀ key v (mergeOn acc rt' key) := by
  obtain ⟨hcount, hrows⟩ := hinv
  have hsub : ∀ c ∈ sharedCols acc rt' key, c ∈ rt'.cols :=
    fun c hc => (mem_sharedCols hc).2.1
  have hkey_not : key ∉ sharedCols acc rt' key :=
    fun hk => (mem_sharedCols hk).2.2 rfl
  have hv_not : v ∉ sharedCols acc rt' key := fun hv' => hvr (hsub v hv')
  have hX : ∀ k, renameBy (sharedCols acc rt' key) "_x" k = v ↔ k = v :=
    renameBy_eq_iff _ "_x" v hv_not (fun c hc => hxv c (hsub c hc))
  have hXk : ∀ k, renameBy (sharedCols acc rt' key) "_x" k = key ↔ k = key :=
    renameBy_eq_iff _ "_x" key hkey_not (fun c hc => hxk c (hsub c hc))
  have hY : ∀ k, renameBy (sharedCols acc rt' key) "_y" k = v ↔ k = v :=
    renameBy_eq_iff _ "_y" v hv_not (fun c hc => hyv c (hsub c hc))
  constructor
  · show (mergeOn acc rt' key).cols.count v = 1
    simp only [mergeOn]
    rw [List.count_append, count_map_eq _ _ _ hX, count_map_eq _ _ _ hY, hcount]
    have h0 : v ∉ rt'.cols.filter (fun c => c ≠ key) :=
      fun hmem => hvr (List.mem_filter.mp hmem).1
    rw [List.count_eq_zero_of_not_mem h0]
  · intro row hrow
    simp only [mergeOn] at hrow
    obtain ⟨lrow, hl, hrow2⟩ := List.mem_flatMap.mp hrow
    obtain ⟨rrow, _, rfl⟩ := List.mem_map.mp hrow2
    obtain ⟨r₀, hr₀, ⟨kv, hk1, hk2⟩, ⟨vv, hv1, hv2⟩⟩ := hrows lrow hl
    refine ⟨r₀, hr₀, ⟨kv, ?_, hk2⟩, ⟨vv, ?_, hv2⟩⟩
    · exact lookup_append_some _ _ _ _
        (by rw [lookup_renameRow_eq _ "_x" lrow key hXk]; exact hk1)
    · exact lookup_append_some _ _ _ _
        (by rw [lookup_renameRow_eq _ "_x" lrow v hX]; exact hv1)

lemma foldl_merge_firstWins (t₀ : Table) (key v : String) (dup : List String)
    (hvdup : v ∈ dup) :
    ∀ (ts : List Table) (acc : Table),
    FirstWins t₀ key v acc →
    (∀ u ∈ ts, ∀ c ∈ u.cols, c ++ "_x" ≠ v ∧ c ++ "_x" ≠ key ∧ c ++ "_y" ≠ v) →
    FirstWins t₀ key v (ts.foldl (fun g u => mergeOn g (dropCols u dup) key) acc) := by
  intro ts
  induction ts with
  | nil => exact fun acc h _ => h
  | cons u us ih =>
    intro acc h hall
    rw [List.foldl_cons]
    refine ih _ ?_ (fun w hw => hall w (List.mem_cons_of_mem _ hw))
    refine mergeOn_firstWins t₀ acc (dropCols u dup) key v (not_mem_dropCols hvdup)
      ?_ ?_ ?_ h
    · intro c hc
      exact (hall u (List.mem_cons_self u us) c (mem_dropCols_sub hc).1).1
    · intro c hc
      exact (hall u (List.mem_cons_self u us) c (mem_dropCols_sub hc).1).2.1
    · intro c hc
      exact (hall u (List.mem_cons_self u us) c (mem_dropCols_sub hc).1).2.2

/-- C10: `merge_features` with `ignore_duplicates` on a non-empty list of
well-formed tables that all contain the key column: a non-key column `v`
common to all tables is dropped from every later table before each inner
join, so the result carries exactly one copy of `v`, and each result
row's `key` and `v` values come from one row of the first table.  The
`hfresh` hypothesis rules out `pd.merge` suffix collisions (no column
name appended with `_x`/`_y` is itself a column name), which is the
regime in which the library's suffixing is well-behaved. -/
theorem merge_features_keeps_first_duplicate
    (t₀ : Table) (rest : List Table) (key v : String)
    (hwf : Table.WF t₀) (hnd : t₀.cols.Nodup)
    (hkey : ∀ t ∈ t₀ :: rest, key ∈ t.cols)
    (hv : ∀ t ∈ t₀ :: rest, v ∈ t.cols)
    (hvk : v ≠ key)
    (hfresh : ∀ c ∈ allCols (t₀ :: rest),
      c ++ "_x" ∉ allCols (t₀ :: rest) ∧ c ++ "_y" ∉ allCols (t₀ :: rest)) :
    ∃ out, merge_features (t₀ :: rest) true key = some out ∧
      out.cols.count v = 1 ∧
      ∀ row ∈ out.rows, ∃ r₀ ∈ t₀.rows,
        (∃ kv, row.lookup key = some kv ∧ r₀.lookup key = some kv) ∧
        (∃ vv, row.lookup v = some vv ∧ r₀.lookup v = some vv) := by
  have hdup : v ∈ (commonCols t₀ rest).filter (fun c => c ≠ key) := by
    refine List.mem_filter.mpr ⟨mem_commonCols t₀ rest (hv t₀ (List.mem_cons_self t₀ rest))
      (fun u hu => hv u (List.mem_cons_of_mem _ hu)), by simpa using hvk⟩
  have hbase : FirstWins t₀ key v t₀ := by
    constructor
    · exact List.count_eq_one_of_mem hnd (hv t₀ (List.mem_cons_self t₀ rest))
    · intro row hrow
      obtain ⟨kb, hkb⟩ := lookup_isSome_of_mem_keys row key
        (by rw [hwf row hrow]; exact hkey t₀ (List.mem_cons_self t₀ rest))
      obtain ⟨vb, hvb⟩ := lookup_isSome_of_mem_keys row v
        (by rw [hwf row hrow]; exact hv t₀ (List.mem_cons_self t₀ rest))
      exact ⟨row, hrow, ⟨kb, hkb, hkb⟩, ⟨vb, hvb, hvb⟩⟩
  have hmemall : ∀ u ∈ t₀ :: rest, ∀ c ∈ u.cols, c ∈ allCols (t₀ :: rest) :=
    fun u hu c hc => List.mem_flatMap.mpr ⟨u, hu, hc⟩
  have hvall : v ∈ allCols (t₀ :: rest) :=
    hmemall t₀ (List.mem_cons_self t₀ rest) v (hv t₀ (List.mem_cons_self t₀ rest))
  have hkall : key ∈ allCols (t₀ :: rest) :=
    hmemall t₀ (List.mem_cons_self t₀ rest) key (hkey t₀ (List.mem_cons_self t₀ rest))
  have hall : ∀ u ∈ rest, ∀ c ∈ u.cols,
      c ++ "_x" ≠ v ∧ c ++ "_x" ≠ key ∧ c ++ "_y" ≠ v := by
    intro u hu c hc
    obtain ⟨hx, hy⟩ := hfresh c (hmemall u (List.mem_cons_of_mem _ hu) c hc)
    exact ⟨fun e => hx (e ▸ hvall), fun e => hx (e ▸ hkall), fun e => hy (e ▸ hvall)⟩
  have hres := foldl_merge_firstWins t₀ key v _ hdup rest t₀ hbase hall
  exact ⟨_, by simp [merge_features], hres.1, hres.2⟩

/-- C10 witness: three tables sharing `cellcode` (key) and `a`; the merge
keeps a single `a` column carrying the first table's values. -/
theorem merge_features_keeps_first_duplicate_witness :
    Table.WF ⟨["cellcode", "a", "b"],
      [[("cellcode", 1), ("a", 10), ("b", 5)], [("cellcode", 2), ("a", 20), ("b", 6)]]⟩ ∧
    (["cellcode", "a", "b"] : List String).Nodup ∧
    (∀ t ∈ [(⟨["cellcode", "a", "b"],
        [[("cellcode", 1), ("a", 10), ("b", 5)], [("cellcode", 2), ("a", 20), ("b", 6)]]⟩ : Table),
      ⟨["cellcode", "a", "c"], [[("cellcode", 1), ("a", 99), ("c", 7)]]⟩,
      ⟨["cellcode", "a"], [[("cellcode", 2), ("a", 50)]]⟩],
      "cellcode" ∈ t.cols ∧ "a" ∈ t.cols) ∧
    ("a" : String) ≠ "cellcode" ∧
    (∀ c ∈ allCols [(⟨["cellcode", "a", "b"],
        [[("cellcode", 1), ("a", 10), ("b", 5)], [("cellcode", 2), ("a", 20), ("b", 6)]]⟩ : Table),
      ⟨["cellcode", "a", "c"], [[("cellcode", 1), ("a", 99), ("c", 7)]]⟩,
      ⟨["cellcode", "a"], [[("cellcode", 2), ("a", 50)]]⟩],
      c ++ "_x" ∉ allCols [(⟨["cellcode", "a", "b"],
        [[("cellcode", 1), ("a", 10), ("b", 5)], [("cellcode", 2), ("a", 20), ("b", 6)]]⟩ : Table),
      ⟨["cellcode", "a", "c"], [[("cellcode", 1), ("a", 99), ("c", 7)]]⟩,
      ⟨["cellcode", "a"], [[("cellcode", 2), ("a", 50)]]⟩] ∧
      c ++ "_y" ∉ allCols [(⟨["cellcode", "a", "b"],
        [[("cellcode", 1), ("a", 10), ("b", 5)], [("cellcode", 2), ("a", 20), ("b", 6)]]⟩ : Table),
      ⟨["cellcode", "a", "c"], [[("cellcode", 1), ("a", 99), ("c", 7)]]⟩,
      ⟨["cellcode", "a"], [[("cellcode", 2), ("a", 50)]]⟩]) ∧
    (∃ out, merge_features [(⟨["cellcode", "a", "b"],
        [[("cellcode", 1), ("a", 10), ("b", 5)], [("cellcode", 2), ("a", 20), ("b", 6)]]⟩ : Table),
      ⟨["cellcode", "a", "c"], [[("cellcode", 1), ("a", 99), ("c", 7)]]⟩,
      ⟨["cellcode", "a"], [[("cellcode", 2), ("a", 50)]]⟩] true "cellcode" = some out ∧
      out.cols.count "a" = 1 ∧
      ∀ row ∈ out.rows, ∃ r₀ ∈ ([[("cellcode", 1), ("a", 10), ("b", 5)],
          [("cellcode", 2), ("a", 20), ("b", 6)]] : List Row),
        (∃ kv, row.lookup "cellcode" = some kv ∧ r₀.lookup "cellcode" = some kv) ∧
        (∃ vv, row.lookup "a" = some vv ∧ r₀.lookup "a" = some vv)) := by
  refine ⟨?_, ?_, ?_, ?_, ?_,
    merge_features_keeps_first_duplicate
      ⟨["cellcode", "a", "b"],
        [[("cellcode", 1), ("a", 10), ("b", 5)], [("cellcode", 2), ("a", 20), ("b", 6)]]⟩
      [⟨["cellcode", "a", "c"], [[("cellcode", 1), ("a", 99), ("c", 7)]]⟩,
        ⟨["cellcode", "a"], [[("cellcode", 2), ("a", 50)]]⟩]
      "cellcode" "a" ?_ ?_ ?_ ?_ ?_ ?_⟩ <;>
    first
    | decide
    | (unfold Table.WF; decide)

end Woelt
